import Mathlib

/-
Verification of the core casting-search code of beatrice.py.

The embedding is shallow: Python dicts become association lists (their keys
are unique in every state the program builds, so theorems that depend on
dict semantics carry an explicit key-nodup hypothesis), Python floats become
rationals, and the recursive search is given an explicit fuel argument that
is one more than the number of vacant roles; a theorem below shows the result
does not depend on the fuel once it exceeds the vacant-role count, which is
exactly the termination argument of the source.
-/

attribute [local semireducible] Rat.mul Rat.add Rat.sub Rat.inv

namespace Beatrice

abbrev Actor := String
abbrev Role := String

/-- A cast maps every role to an actor or to vacant, in insertion order. -/
abbrev Casting := List (Role × Option Actor)

/-- A table mapping each role to the list of actors who can play it. -/
abbrev RoleActors := List (Role × List Actor)

def SWITCHING_ROLE_PENALTY : ℚ := 1/10

def ALREADY_BOOKED_BENEFIT : ℚ := 1/5

/-- One step of the loop in ScoreCast: the state is the running score and the
empty-cast flag; a filled role multiplies its convenience times skill into the
score and clears the flag. -/
def scoreStep (role_actor_convenience role_actor_skill : Role → Actor → ℚ)
    (st : ℚ × Bool) (p : Role × Option Actor) : ℚ × Bool :=
  match p.2 with
  | some actor =>
      (st.1 * (role_actor_convenience p.1 actor * role_actor_skill p.1 actor), false)
  | none => st

/-- Scores a cast (beatrice.py lines 38-51): start from 1, multiply in
convenience times skill for every filled role, and return 0 if no role at all
was filled. -/
def ScoreCast (cast : Casting)
    (role_actor_convenience role_actor_skill : Role → Actor → ℚ) : ℚ :=
  let st := cast.foldl (scoreStep role_actor_convenience role_actor_skill) (1, true)
  if st.2 then 0 else st.1

/-- Checks that every required actor appears among the cast's values
(beatrice.py lines 57-61). -/
def CastHasRequiredActors (cast : Casting) (required_actors : List Actor) : Bool :=
  required_actors.all (fun actor => (cast.map Prod.snd).contains (some actor))

/-- Lexicographic comparison of character lists by code point, the order
Python sorted uses on strings. -/
def strLtB : List Char → List Char → Bool
  | [], [] => false
  | [], _ :: _ => true
  | _ :: _, [] => false
  | a :: as, b :: bs => if a < b then true else if b < a then false else strLtB as bs

/-- Python string comparison: lexicographic on code points. -/
def strLt (a b : String) : Bool := strLtB a.data b.data

/-- The roles of the cast that hold no actor, in cast order
(the loop of beatrice.py lines 65-68). -/
def vacantRoles (cast : Casting) : List Role :=
  cast.filterMap (fun p => if p.2 = none then some p.1 else none)

/-- Number of vacant roles in a cast. -/
def countVacant (cast : Casting) : Nat :=
  (vacantRoles cast).length

/-- Returns the next role with no assigned actor (beatrice.py lines 64-71):
the first element of the sorted list of empty roles, that is the
lexicographically least vacant role, or none if the cast is full. -/
def NextUnfilledRole (cast : Casting) : Option Role :=
  match vacantRoles cast with
  | [] => none
  | r :: rs => some (rs.foldl (fun m x => if strLt x m then x else m) r)

/-- Removes one occurrence of an actor from every role's eligibility list,
on a copy (beatrice.py lines 76-81; Python list.remove drops the first
occurrence and is skipped when the actor is absent, which is List.erase). -/
def CopyPurgingActor (role_actor : RoleActors) (actor : Actor) : RoleActors :=
  role_actor.map (fun p => (p.1, p.2.erase actor))

/-- Lookup in the role-to-actors table, first entry with the key; a missing
role yields the empty list, matching the defaultdict(list) the table is built
as in main. -/
def lookupRA : RoleActors → Role → List Actor
  | [], _ => []
  | p :: t, role => if p.1 = role then p.2 else lookupRA t role

/-- Store a list under a role: replace the entry when the key is present
(Python dict assignment), append it otherwise (defaultdict insertion). -/
def updateRA (role_actor : RoleActors) (role : Role) (l : List Actor) : RoleActors :=
  if (role_actor.map Prod.fst).contains role then
    role_actor.map (fun p => if p.1 = role then (role, l) else p)
  else
    role_actor ++ [(role, l)]

/-- Assign a value to a role of the cast, Python dict assignment on an
existing key: the entry with that key is replaced in place. -/
def setRole (cast : Casting) (role : Role) (v : Option Actor) : Casting :=
  cast.map (fun p => if p.1 = role then (role, v) else p)

/-- Insert an actor into a list that is already sorted by descending key,
placing it before the first element whose key is at most its own; this keeps
equal-key elements in their original relative order. -/
def insertDesc (key : Actor → ℚ) (a : Actor) : List Actor → List Actor
  | [] => [a]
  | b :: l => if key b ≤ key a then a :: b :: l else b :: insertDesc key a l

/-- Stable sort by descending key, the semantics of Python
list.sort(key, reverse=True) at beatrice.py lines 115-117. -/
def sortActorsByKey (key : Actor → ℚ) : List Actor → List Actor
  | [] => []
  | a :: l => insertDesc key a (sortActorsByKey key l)

/-- The actor loop of GeneratePossibleCasts (beatrice.py lines 118-133).
For each candidate actor in order: tentatively assign it to the role; skip the
branch when the tentative score is strictly below the running best score;
otherwise recurse through rec on the purged table, collect the children, and
continue with the best score raised to the children's best. -/
def goActors (rec : Casting → RoleActors → ℚ → List Casting × ℚ)
    (cast : Casting) (role : Role) (role_actor : RoleActors)
    (role_actor_convenience role_actor_skill : Role → Actor → ℚ) :
    List Actor → ℚ → List Casting × ℚ
  | [], best_score => ([], best_score)
  | actor :: rest, best_score =>
    let cast_copy := setRole cast role (some actor)
    if ScoreCast cast_copy role_actor_convenience role_actor_skill < best_score then
      goActors rec cast role role_actor role_actor_convenience role_actor_skill
        rest best_score
    else
      let children := rec cast_copy (CopyPurgingActor role_actor actor) best_score
      let rest_result := goActors rec cast role role_actor role_actor_convenience
        role_actor_skill rest (max best_score children.2)
      (children.1 ++ rest_result.1, rest_result.2)

/-- Fuelled form of GeneratePossibleCasts (beatrice.py lines 96-134).
Base case: a full cast is returned when it has all required actors, raising
the best score. Inductive case: the chosen role's actors are sorted in place
by descending key; the key of the source is convenience times convenience,
because line 114 of the source reads actor_skill from role_actor_convenience.
The fuel only bounds the recursion depth; GeneratePossibleCasts supplies one
more than the number of vacant roles, which a theorem below shows suffices. -/
def GPCfuel (role_actor_convenience role_actor_skill : Role → Actor → ℚ)
    (scheduled_actors : List Actor) :
    Nat → Casting → RoleActors → ℚ → List Casting × ℚ
  | 0, _, _, best_score => ([], best_score)
  | fuel + 1, cast, role_actor, best_score =>
    match NextUnfilledRole cast with
    | none =>
      if CastHasRequiredActors cast scheduled_actors then
        ([cast], max best_score (ScoreCast cast role_actor_convenience role_actor_skill))
      else
        ([], best_score)
    | some role =>
      let sorted_actors := sortActorsByKey
        (fun actor => role_actor_convenience role actor * role_actor_convenience role actor)
        (lookupRA role_actor role)
      let role_actor2 := updateRA role_actor role sorted_actors
      goActors
        (fun c ra b => GPCfuel role_actor_convenience role_actor_skill scheduled_actors fuel c ra b)
        cast role role_actor2 role_actor_convenience role_actor_skill
        sorted_actors best_score

/-- The recursive cast enumerator of beatrice.py lines 96-134, with the
argument order of the source. -/
def GeneratePossibleCasts (cast : Casting) (role_actor : RoleActors)
    (scheduled_actors : List Actor) (best_score : ℚ)
    (role_actor_convenience role_actor_skill : Role → Actor → ℚ) :
    List Casting × ℚ :=
  GPCfuel role_actor_convenience role_actor_skill scheduled_actors
    (countVacant cast + 1) cast role_actor best_score

/-- The state of the role_actor table after a call to GeneratePossibleCasts.
The call mutates its argument exactly once, by the in-place actors.sort of
beatrice.py lines 112-117 applied to the chosen vacant role's list (reading
role_actor of a missing role also inserts an empty list, as defaultdict does);
all recursive calls receive deep copies and cannot touch the argument. -/
def GeneratePossibleCastsTableEffect (cast : Casting) (role_actor : RoleActors)
    (role_actor_convenience : Role → Actor → ℚ) : RoleActors :=
  match NextUnfilledRole cast with
  | none => role_actor
  | some role =>
    updateRA role_actor role (sortActorsByKey
      (fun actor => role_actor_convenience role actor * role_actor_convenience role actor)
      (lookupRA role_actor role))

/-- Effective convenience of an actor for a role, from the base convenience
and the role's incumbent (beatrice.py lines 307-325): rescale the base, then
add the booked benefit when the actor is the incumbent, or subtract the
switching penalty when a different actor is the incumbent. -/
def effectiveConvenience (base : ℚ) (incumbent : Option Actor) (actor : Actor) : ℚ :=
  let c := base * (1 - (ALREADY_BOOKED_BENEFIT + SWITCHING_ROLE_PENALTY))
    + SWITCHING_ROLE_PENALTY
  match incumbent with
  | none => c
  | some booked =>
    if booked = actor then c + ALREADY_BOOKED_BENEFIT
    else c - SWITCHING_ROLE_PENALTY

/-- Written after the words of the spec, for comparison with ScoreCast: the
list of factors convenience times skill of the filled roles of a cast. -/
def castFactors (cast : Casting)
    (role_actor_convenience role_actor_skill : Role → Actor → ℚ) : List ℚ :=
  cast.filterMap (fun p => p.2.map
    (fun actor => role_actor_convenience p.1 actor * role_actor_skill p.1 actor))

/-- Modelled from the spec: the weighted-random Selector mode is absent from
src/beatrice.py (only an unused random module and an unused
unused_actors_random_cast variable remain), so it is modelled from the spec's
words: cumulative-distribution sampling that draws a cast with probability
proportional to its score over the accepted casts paired with their scores. -/
def selectWeighted : List (Casting × ℚ) → ℚ → Option Casting
  | [], _ => none
  | (c, w) :: rest, r => if r < w then some c else selectWeighted rest (r - w)

/-- Total weight of the casts before position i in the accepted-cast list,
the cumulative distribution selectWeighted samples against. -/
def weightBefore (casts : List (Casting × ℚ)) (i : Nat) : ℚ :=
  ((casts.take i).map Prod.snd).sum

/-! Helper lemmas about the table and cast operations. -/

theorem lookupRA_purge (ra : RoleActors) (a : Actor) (r : Role) :
    lookupRA (CopyPurgingActor ra a) r = (lookupRA ra r).erase a := by
  induction ra with
  | nil => rfl
  | cons p t ih =>
    by_cases h : p.1 = r
    · simp [CopyPurgingActor, lookupRA, h]
    · simpa [CopyPurgingActor, lookupRA, h] using ih

theorem lookupRA_mapReplace_ne (ra : RoleActors) (role : Role) (l : List Actor)
    (r : Role) (h : r ≠ role) :
    lookupRA (ra.map (fun p => if p.1 = role then (role, l) else p)) r
      = lookupRA ra r := by
  induction ra with
  | nil => rfl
  | cons p t ih =>
    by_cases hp : p.1 = role
    · have h1 : ¬ role = r := fun hh => h hh.symm
      simp [lookupRA, hp, h1, ih]
    · by_cases hr : p.1 = r
      · simp [lookupRA, hp, hr, h]
      · simp [lookupRA, hp, hr, ih]

theorem lookupRA_mapReplace_self (ra : RoleActors) (role : Role) (l : List Actor)
    (h : role ∈ ra.map Prod.fst) :
    lookupRA (ra.map (fun p => if p.1 = role then (role, l) else p)) role = l := by
  induction ra with
  | nil => simp at h
  | cons p t ih =>
    by_cases hp : p.1 = role
    · simp [lookupRA, hp]
    · have hmem : role ∈ t.map Prod.fst := by
        rcases List.mem_cons.mp h with h1 | h1
        · exact absurd h1.symm hp
        · exact h1
      simp [lookupRA, hp, ih hmem]

theorem lookupRA_append_single (ra : RoleActors) (role : Role) (l : List Actor)
    (r : Role) (hro : role ∉ ra.map Prod.fst) :
    lookupRA (ra ++ [(role, l)]) r = if r = role then l else lookupRA ra r := by
  induction ra with
  | nil =>
    by_cases h : r = role
    · simp [lookupRA, h]
    · have h1 : ¬ role = r := fun hh => h hh.symm
      simp [lookupRA, h, h1]
  | cons p t ih =>
    simp only [List.map_cons, List.mem_cons, not_or] at hro
    by_cases hp : p.1 = r
    · have h : ¬ r = role := fun hh => hro.1 (hh ▸ hp).symm
      simp [lookupRA, hp, h]
    · simp [lookupRA, hp, ih hro.2]

theorem lookupRA_updateRA (ra : RoleActors) (role : Role) (l : List Actor)
    (r : Role) :
    lookupRA (updateRA ra role l) r = if r = role then l else lookupRA ra r := by
  unfold updateRA
  by_cases hc : (ra.map Prod.fst).contains role
  · rw [if_pos hc]
    have hmem : role ∈ ra.map Prod.fst := by
      simpa using hc
    by_cases hr : r = role
    · subst hr
      rw [if_pos rfl]
      exact lookupRA_mapReplace_self ra r l hmem
    · rw [if_neg hr]
      exact lookupRA_mapReplace_ne ra role l r hr
  · rw [if_neg hc]
    have hmem : role ∉ ra.map Prod.fst := by
      intro hm
      exact hc (by simpa using hm)
    exact lookupRA_append_single ra role l r hmem

theorem insertDesc_perm (key : Actor → ℚ) (a : Actor) (l : List Actor) :
    (insertDesc key a l).Perm (a :: l) := by
  induction l with
  | nil => simp [insertDesc]
  | cons b t ih =>
    unfold insertDesc
    by_cases h : key b ≤ key a
    · simp [h]
    · rw [if_neg h]
      exact (ih.cons b).trans (List.Perm.swap a b t)

theorem sortActorsByKey_perm (key : Actor → ℚ) (l : List Actor) :
    (sortActorsByKey key l).Perm l := by
  induction l with
  | nil => simp [sortActorsByKey]
  | cons a t ih => exact (insertDesc_perm key a _).trans (ih.cons a)

theorem mem_sortActorsByKey {key : Actor → ℚ} {l : List Actor} {a : Actor}
    (h : a ∈ sortActorsByKey key l) : a ∈ l :=
  (sortActorsByKey_perm key l).mem_iff.mp h

theorem mem_vacantRoles {cast : Casting} {r : Role} :
    r ∈ vacantRoles cast ↔ (r, none) ∈ cast := by
  unfold vacantRoles
  rw [List.mem_filterMap]
  constructor
  · rintro ⟨⟨r', oa⟩, hmem, h⟩
    rcases oa with _ | b
    · simp only [if_pos rfl, Option.some.injEq] at h
      cases h
      exact hmem
    · simp at h
  · intro h
    exact ⟨(r, none), h, by simp⟩

theorem foldl_strMin_mem (rs : List Role) :
    ∀ r0 : Role, rs.foldl (fun m x => if strLt x m then x else m) r0 ∈ r0 :: rs := by
  induction rs with
  | nil => intro r0; simp
  | cons x t ih =>
    intro r0
    simp only [List.foldl_cons]
    by_cases h : strLt x r0
    · rw [if_pos h]
      rcases List.mem_cons.mp (ih x) with h1 | h1
      · simp [h1]
      · simp [List.mem_cons_of_mem, h1]
    · rw [if_neg h]
      rcases List.mem_cons.mp (ih r0) with h1 | h1
      · simp [h1]
      · simp [List.mem_cons_of_mem, h1]

theorem nextUnfilledRole_eq_none_iff {cast : Casting} :
    NextUnfilledRole cast = none ↔ countVacant cast = 0 := by
  unfold NextUnfilledRole countVacant
  cases h : vacantRoles cast <;> simp

theorem nextUnfilledRole_some_mem {cast : Casting} {r : Role}
    (h : NextUnfilledRole cast = some r) : (r, none) ∈ cast := by
  unfold NextUnfilledRole at h
  cases hv : vacantRoles cast with
  | nil => rw [hv] at h; cases h
  | cons a t =>
    rw [hv] at h
    injection h with h
    have hm : r ∈ a :: t := h ▸ foldl_strMin_mem t a
    rw [← hv] at hm
    exact mem_vacantRoles.mp hm

theorem countVacant_cons (p : Role × Option Actor) (t : Casting) :
    countVacant (p :: t) = (if p.2 = none then 1 else 0) + countVacant t := by
  unfold countVacant vacantRoles
  by_cases h : p.2 = none
  · simp [h]
    omega
  · simp [h]

theorem setRole_cons (p : Role × Option Actor) (t : Casting) (role : Role)
    (v : Option Actor) :
    setRole (p :: t) role v
      = (if p.1 = role then (role, v) else p) :: setRole t role v := by
  unfold setRole
  by_cases h : p.1 = role <;> simp [h]

theorem setRole_map_fst (cast : Casting) (role : Role) (v : Option Actor) :
    (setRole cast role v).map Prod.fst = cast.map Prod.fst := by
  induction cast with
  | nil => rfl
  | cons p t ih =>
    rw [setRole_cons]
    by_cases h : p.1 = role
    · simp [h, ih]
    · simp [h, ih]

theorem setRole_eq_of_not_mem {cast : Casting} {role : Role} {v : Option Actor}
    (h : role ∉ cast.map Prod.fst) : setRole cast role v = cast := by
  induction cast with
  | nil => rfl
  | cons p t ih =>
    simp only [List.map_cons, List.mem_cons, not_or] at h
    rw [setRole_cons, if_neg (fun hp => h.1 hp.symm), ih h.2]

theorem mem_setRole {cast : Casting} {role : Role} {v : Option Actor}
    {p : Role × Option Actor} (h : p ∈ setRole cast role v) :
    p ∈ cast ∨ p = (role, v) := by
  unfold setRole at h
  obtain ⟨q, hq, hfq⟩ := List.mem_map.mp h
  by_cases h1 : q.1 = role
  · right
    rw [if_pos h1] at hfq
    exact hfq.symm
  · left
    rw [if_neg h1] at hfq
    exact hfq ▸ hq

theorem countVacant_setRole_le (cast : Casting) (role : Role) (a : Actor) :
    countVacant (setRole cast role (some a)) ≤ countVacant cast := by
  induction cast with
  | nil => simp [setRole, countVacant, vacantRoles]
  | cons p t ih =>
    rw [setRole_cons, countVacant_cons, countVacant_cons]
    by_cases h : p.1 = role
    · simp only [if_pos h]
      have : ((some a : Option Actor) = none) = False := by simp
      simp only [this, if_false]
      omega
    · simp only [if_neg h]
      omega

theorem countVacant_setRole_lt {cast : Casting} {role : Role} (a : Actor)
    (h : (role, none) ∈ cast) :
    countVacant (setRole cast role (some a)) < countVacant cast := by
  induction cast with
  | nil => cases h
  | cons p t ih =>
    rw [setRole_cons, countVacant_cons, countVacant_cons]
    have hsa : ¬ (((role, some a) : Role × Option Actor).2 = none) := by simp
    rcases List.mem_cons.mp h with he | ht
    · subst he
      rw [if_pos rfl, if_neg hsa, if_pos rfl]
      have hle := countVacant_setRole_le t role a
      omega
    · have hlt := ih ht
      by_cases hp : p.1 = role
      · rw [if_pos hp, if_neg hsa]
        omega
      · rw [if_neg hp]
        omega

theorem assigned_setRole_perm {cast : Casting} {role : Role} {a : Actor}
    (hk : (cast.map Prod.fst).Nodup) (hmem : (role, none) ∈ cast) :
    ((setRole cast role (some a)).filterMap Prod.snd).Perm
      (a :: cast.filterMap Prod.snd) := by
  induction cast with
  | nil => cases hmem
  | cons p t ih =>
    simp only [List.map_cons, List.nodup_cons] at hk
    obtain ⟨hp1, hk2⟩ := hk
    rcases List.mem_cons.mp hmem with he | ht
    · have hfst : p.1 = role := by rw [← he]
      have hsnd : p.2 = none := by rw [← he]
      have hnot : role ∉ t.map Prod.fst := hfst ▸ hp1
      rw [setRole_cons, if_pos hfst, setRole_eq_of_not_mem hnot]
      simp [List.filterMap_cons, hsnd]
    · have hp : p.1 ≠ role := by
        intro hh
        exact hp1 (hh ▸ (List.mem_map_of_mem Prod.fst ht))
      rw [setRole_cons, if_neg hp]
      cases hs : p.2 with
      | none => simpa [List.filterMap_cons, hs] using ih hk2 ht
      | some b =>
        simp only [List.filterMap_cons, hs]
        exact ((ih hk2 ht).cons b).trans (List.Perm.swap a b _)

theorem mem_assigned_iff {cast : Casting} {a : Actor} :
    a ∈ cast.filterMap Prod.snd ↔ some a ∈ cast.map Prod.snd := by
  rw [List.mem_filterMap]
  constructor
  · rintro ⟨p, hp, h2⟩
    exact List.mem_map.mpr ⟨p, hp, h2⟩
  · intro h
    obtain ⟨p, hp, h2⟩ := List.mem_map.mp h
    exact ⟨p, hp, h2⟩

theorem castFactors_cons_none {p : Role × Option Actor} {t : Casting}
    (conv skill : Role → Actor → ℚ) (hp : p.2 = none) :
    castFactors (p :: t) conv skill = castFactors t conv skill := by
  simp [castFactors, List.filterMap_cons, hp]

theorem castFactors_cons_some {p : Role × Option Actor} {t : Casting} {a : Actor}
    (conv skill : Role → Actor → ℚ) (hp : p.2 = some a) :
    castFactors (p :: t) conv skill
      = (conv p.1 a * skill p.1 a) :: castFactors t conv skill := by
  simp [castFactors, List.filterMap_cons, hp]

theorem scoreFold_eq (conv skill : Role → Actor → ℚ) (cast : Casting) :
    ∀ (s : ℚ) (b : Bool),
      cast.foldl (scoreStep conv skill) (s, b)
        = (s * (castFactors cast conv skill).prod,
           b && (castFactors cast conv skill).isEmpty) := by
  induction cast with
  | nil => intro s b; simp [castFactors]
  | cons p t ih =>
    intro s b
    cases hp : p.2 with
    | none =>
      rw [List.foldl_cons]
      have hstep : scoreStep conv skill (s, b) p = (s, b) := by
        simp [scoreStep, hp]
      rw [hstep, ih, castFactors_cons_none conv skill hp]
    | some a =>
      rw [List.foldl_cons]
      have hstep : scoreStep conv skill (s, b) p
          = (s * (conv p.1 a * skill p.1 a), false) := by
        simp [scoreStep, hp]
      rw [hstep, ih, castFactors_cons_some conv skill hp, List.prod_cons]
      simp [mul_assoc]

/-- C5: ScoreCast multiplies, over every role of the cast holding an actor,
the convenience times the skill of that pair, and returns 0 exactly when no
role in the cast is filled. -/
theorem ScoreCast_eq_prod (cast : Casting)
    (role_actor_convenience role_actor_skill : Role → Actor → ℚ) :
    ScoreCast cast role_actor_convenience role_actor_skill
      = (if castFactors cast role_actor_convenience role_actor_skill = [] then 0
         else (castFactors cast role_actor_convenience role_actor_skill).prod) ∧
    (castFactors cast role_actor_convenience role_actor_skill = []
      ↔ ∀ p ∈ cast, p.2 = none) := by
  constructor
  · unfold ScoreCast
    rw [scoreFold_eq]
    cases h : castFactors cast role_actor_convenience role_actor_skill with
    | nil => simp
    | cons q l => simp
  · unfold castFactors
    rw [List.filterMap_eq_nil_iff]
    constructor
    · intro h p hp
      have := h p hp
      simpa using this
    · intro h p hp
      simp [h p hp]

/-- C6: with the effective-convenience table of main built from the default
constants, equal positive skill, and p the incumbent of the role, the cast
keeping p scores strictly higher than the cast switching to q whenever base
convenience of p plus the booked benefit exceeds base convenience of q minus
the switching penalty. -/
theorem scorer_prefers_incumbent (role : Role) (p q : Actor) (cv : Actor → ℚ)
    (s : ℚ) (hpq : p ≠ q) (hs : 0 < s)
    (h : cv p + ALREADY_BOOKED_BENEFIT > cv q - SWITCHING_ROLE_PENALTY) :
    ScoreCast [(role, some q)]
        (fun _ a => effectiveConvenience (cv a) (some p) a) (fun _ _ => s)
      < ScoreCast [(role, some p)]
        (fun _ a => effectiveConvenience (cv a) (some p) a) (fun _ _ => s) := by
  have hq : effectiveConvenience (cv q) (some p) q
      = cv q * (1 - (ALREADY_BOOKED_BENEFIT + SWITCHING_ROLE_PENALTY))
        + SWITCHING_ROLE_PENALTY - SWITCHING_ROLE_PENALTY := by
    simp [effectiveConvenience, hpq]
  have hp' : effectiveConvenience (cv p) (some p) p
      = cv p * (1 - (ALREADY_BOOKED_BENEFIT + SWITCHING_ROLE_PENALTY))
        + SWITCHING_ROLE_PENALTY + ALREADY_BOOKED_BENEFIT := by
    simp [effectiveConvenience]
  have key : effectiveConvenience (cv q) (some p) q
      < effectiveConvenience (cv p) (some p) p := by
    rw [hq, hp']
    unfold ALREADY_BOOKED_BENEFIT SWITCHING_ROLE_PENALTY at h ⊢
    linarith
  simp only [ScoreCast, List.foldl_cons, List.foldl_nil, scoreStep]
  norm_num
  exact mul_lt_mul_of_pos_right key hs

/-- Witness for C6 at a concrete input: both actors have base convenience 1
and skill 1, so keeping the incumbent scores 1 against 7/10. -/
theorem scorer_prefers_incumbent_check :
    ("p" : String) ≠ "q" ∧ (0 : ℚ) < 1 ∧
    (1 : ℚ) + ALREADY_BOOKED_BENEFIT > 1 - SWITCHING_ROLE_PENALTY ∧
    ScoreCast [("A", some "q")]
        (fun _ a => effectiveConvenience 1 (some "p") a) (fun _ _ => 1)
      < ScoreCast [("A", some "p")]
        (fun _ a => effectiveConvenience 1 (some "p") a) (fun _ _ => 1) := by
  refine ⟨by decide, by decide, by decide, ?_⟩
  exact scorer_prefers_incumbent "A" "p" "q" (fun _ => 1) 1
    (by decide) (by decide) (by decide)

/-- C10: CopyPurgingActor keeps the table's roles in order; each entry keeps
its role and loses one occurrence of the purged actor, so when the entry's
list is duplicate-free the purged actor is gone from it and every other actor
survives in the original relative order. -/
theorem CopyPurgingActor_spec (role_actor : RoleActors) (actor : Actor) :
    (CopyPurgingActor role_actor actor).map Prod.fst = role_actor.map Prod.fst ∧
    ∀ p ∈ role_actor,
      (p.1, p.2.erase actor) ∈ CopyPurgingActor role_actor actor ∧
      (p.2.Nodup → actor ∉ p.2.erase actor ∧
        p.2.erase actor = p.2.filter (fun x => x != actor)) := by
  constructor
  · unfold CopyPurgingActor
    rw [List.map_map]
    rfl
  · intro p hp
    refine ⟨List.mem_map_of_mem _ hp, fun hd => ⟨hd.not_mem_erase, hd.erase_eq_filter actor⟩⟩

/-- Witness for C10 at a concrete input. -/
theorem CopyPurgingActor_spec_check :
    ("A", ["y"]) ∈ CopyPurgingActor [("A", ["x", "y"])] "x" ∧
    "x" ∉ (["x", "y"].erase "x") := by
  have h := (CopyPurgingActor_spec [("A", ["x", "y"])] "x").2
    ("A", ["x", "y"]) (by decide)
  have h1 : (["x", "y"].erase "x") = ["y"] := by decide
  exact ⟨h1 ▸ h.1, (h.2 (by decide)).1⟩

/-! Unfolding equations for the search. -/

theorem goActors_nil (rec : Casting → RoleActors → ℚ → List Casting × ℚ)
    (cast : Casting) (role : Role) (ra : RoleActors)
    (conv skill : Role → Actor → ℚ) (best : ℚ) :
    goActors rec cast role ra conv skill [] best = ([], best) := rfl

theorem goActors_cons (rec : Casting → RoleActors → ℚ → List Casting × ℚ)
    (cast : Casting) (role : Role) (ra : RoleActors)
    (conv skill : Role → Actor → ℚ) (a : Actor) (rest : List Actor) (best : ℚ) :
    goActors rec cast role ra conv skill (a :: rest) best
      = if ScoreCast (setRole cast role (some a)) conv skill < best then
          goActors rec cast role ra conv skill rest best
        else
          ((rec (setRole cast role (some a)) (CopyPurgingActor ra a) best).1
             ++ (goActors rec cast role ra conv skill rest
                  (max best
                    (rec (setRole cast role (some a)) (CopyPurgingActor ra a) best).2)).1,
           (goActors rec cast role ra conv skill rest
              (max best
                (rec (setRole cast role (some a)) (CopyPurgingActor ra a) best).2)).2) := rfl

theorem GPCfuel_zero (conv skill : Role → Actor → ℚ) (sched : List Actor)
    (cast : Casting) (ra : RoleActors) (best : ℚ) :
    GPCfuel conv skill sched 0 cast ra best = ([], best) := rfl

theorem GPCfuel_succ_none {cast : Casting} (conv skill : Role → Actor → ℚ)
    (sched : List Actor) (fuel : Nat) (ra : RoleActors) (best : ℚ)
    (h : NextUnfilledRole cast = none) :
    GPCfuel conv skill sched (fuel + 1) cast ra best
      = if CastHasRequiredActors cast sched then
          ([cast], max best (ScoreCast cast conv skill))
        else ([], best) := by
  rw [GPCfuel, h]

theorem GPCfuel_succ_some {cast : Casting} {role : Role}
    (conv skill : Role → Actor → ℚ) (sched : List Actor) (fuel : Nat)
    (ra : RoleActors) (best : ℚ) (h : NextUnfilledRole cast = some role) :
    GPCfuel conv skill sched (fuel + 1) cast ra best
      = goActors (fun c r b => GPCfuel conv skill sched fuel c r b)
          cast role
          (updateRA ra role (sortActorsByKey
            (fun a => conv role a * conv role a) (lookupRA ra role)))
          conv skill
          (sortActorsByKey (fun a => conv role a * conv role a) (lookupRA ra role))
          best := by
  rw [GPCfuel, h]

/-- Every cast in the output of the actor loop comes from some actor of the
list and some recursive call whose best-score argument is at least the
incoming one and whose tentative partial score was not pruned. -/
theorem goActors_cases {rec : Casting → RoleActors → ℚ → List Casting × ℚ}
    {cast : Casting} {role : Role} {ra : RoleActors}
    {conv skill : Role → Actor → ℚ} :
    ∀ {actors : List Actor} {best : ℚ} {c : Casting},
      c ∈ (goActors rec cast role ra conv skill actors best).1 →
      ∃ a ∈ actors, ∃ b : ℚ, best ≤ b ∧
        ¬ ScoreCast (setRole cast role (some a)) conv skill < b ∧
        c ∈ (rec (setRole cast role (some a)) (CopyPurgingActor ra a) b).1 := by
  intro actors
  induction actors with
  | nil =>
    intro best c hc
    rw [goActors_nil] at hc
    cases hc
  | cons a rest ih =>
    intro best c hc
    rw [goActors_cons] at hc
    by_cases hs : ScoreCast (setRole cast role (some a)) conv skill < best
    · rw [if_pos hs] at hc
      obtain ⟨a', ha', b, hb, hbs, hmem⟩ := ih hc
      exact ⟨a', List.mem_cons_of_mem _ ha', b, hb, hbs, hmem⟩
    · rw [if_neg hs] at hc
      rcases List.mem_append.mp hc with hc | hc
      · exact ⟨a, List.mem_cons_self a rest, best, le_refl _, hs, hc⟩
      · obtain ⟨a', ha', b, hb, hbs, hmem⟩ := ih hc
        exact ⟨a', List.mem_cons_of_mem _ ha', b,
          le_trans (le_max_left _ _) hb, hbs, hmem⟩

theorem goActors_congr {rec1 rec2 : Casting → RoleActors → ℚ → List Casting × ℚ}
    {cast : Casting} {role : Role} {ra : RoleActors}
    {conv skill : Role → Actor → ℚ}
    (H : ∀ (a : Actor) (b : ℚ),
      rec1 (setRole cast role (some a)) (CopyPurgingActor ra a) b
        = rec2 (setRole cast role (some a)) (CopyPurgingActor ra a) b) :
    ∀ (actors : List Actor) (best : ℚ),
      goActors rec1 cast role ra conv skill actors best
        = goActors rec2 cast role ra conv skill actors best := by
  intro actors
  induction actors with
  | nil => intro best; rw [goActors_nil, goActors_nil]
  | cons a rest ih =>
    intro best
    rw [goActors_cons, goActors_cons]
    simp only [H, ih]

/-! Claim theorems about the search engine's edge behaviour. -/

/-- C7 counterexample: at a concrete input whose only vacant role has an
empty eligible list the search returns normally with no casts and the
unchanged best score; it signals nothing. -/
theorem search_empty_role_silently_empty :
    GeneratePossibleCasts [("A", none)] [("A", [])] ["a"] 0
      (fun _ _ => 1) (fun _ _ => 1) = ([], 0) := by decide

/-- C7 amended: when the chosen vacant role has an empty eligible-actor list,
GeneratePossibleCasts silently returns no casts for that branch together
with the unchanged best score; no error is signalled. -/
theorem search_empty_role_returns_nothing (cast : Casting) (ra : RoleActors)
    (sched : List Actor) (best : ℚ) (conv skill : Role → Actor → ℚ)
    (role : Role) (h1 : NextUnfilledRole cast = some role)
    (h2 : lookupRA ra role = []) :
    GeneratePossibleCasts cast ra sched best conv skill = ([], best) := by
  unfold GeneratePossibleCasts
  rw [GPCfuel_succ_some conv skill sched (countVacant cast) ra best h1, h2]
  rfl

/-- Witness for the C7 theorem at a concrete input. -/
theorem search_empty_role_returns_nothing_check :
    NextUnfilledRole [("B", none)] = some "B" ∧
    lookupRA [("B", ([] : List Actor))] "B" = [] ∧
    GeneratePossibleCasts [("B", none)] [("B", [])] [] 5
      (fun _ _ => 1) (fun _ _ => 1) = ([], 5) := by
  refine ⟨by decide, by decide, ?_⟩
  exact search_empty_role_returns_nothing [("B", none)] [("B", [])] [] 5
    (fun _ _ => 1) (fun _ _ => 1) "B" (by decide) (by decide)

/-- C2: the trace at a failing input shows the actor order the search tries.
With skill(A,x)=10, conv(A,x)=1, skill(A,y)=1, conv(A,y)=2, descending skill
times convenience would try x (10) before y (2), but the code tries and
returns y first: line 114 of the source reads the sort's skill table from
role_actor_convenience, so it orders by convenience squared (y: 4, x: 1). -/
theorem generatePossibleCasts_orders_by_convenience_squared :
    (GeneratePossibleCasts [("A", none)] [("A", ["x", "y"])] [] 0
      (fun _ a => if a = "y" then 2 else 1)
      (fun _ a => if a = "x" then 10 else 1)).1
      = [[("A", some "y")], [("A", some "x")]] := by decide

/-- C1 counterexample: no qualityThreshold exists and pruning is never
disabled: with conv(A,x)=2, conv(A,y)=1, skill 1 and no scheduled actors, the
cast assigning y is a complete cast filled from the eligible list, yet only
the cast assigning x is returned, because y's branch scores 1, strictly below
the running best score 2. -/
theorem generatePossibleCasts_prunes_by_default :
    (GeneratePossibleCasts [("A", none)] [("A", ["x", "y"])] [] 0
        (fun _ a => if a = "x" then 2 else 1) (fun _ _ => 1)).1
      = [[("A", some "x")]] ∧
    [("A", some "y")] ∉
      (GeneratePossibleCasts [("A", none)] [("A", ["x", "y"])] [] 0
        (fun _ a => if a = "x" then 2 else 1) (fun _ _ => 1)).1 := by
  constructor
  · decide
  · decide

/-- C4 counterexample: with a duplicated entry in role B's eligible list, the
single returned cast assigns the scheduled actor a to both roles, so a does
not appear exactly once among the cast's values. -/
theorem generatePossibleCasts_duplicate_list_duplicates_actor :
    (GeneratePossibleCasts [("A", none), ("B", none)]
        [("A", ["a"]), ("B", ["a", "a"])] ["a"] 0
        (fun _ _ => 1) (fun _ _ => 1)).1
      = [[("A", some "a"), ("B", some "a")]] ∧
    (([("A", some "a"), ("B", some "a")] : Casting).filterMap Prod.snd).count "a"
      = 2 := by
  constructor
  · decide
  · decide

/-- C8 counterexample: a call on a table whose chosen role's list is out of
the sort order leaves that list reordered in the caller's table. -/
theorem tableEffect_reorders_list :
    GeneratePossibleCastsTableEffect [("A", none)] [("A", ["x", "y"])]
      (fun _ a => if a = "y" then 2 else 1) ≠ [("A", ["x", "y"])] := by decide

/-- C8 amended: a call never adds or removes an actor from any role's list:
afterwards every role's list is a permutation of its list before the call,
every role other than the chosen vacant one is untouched, and a call on a
full cast leaves the table unchanged; only the chosen role's list may be
reordered, by the in-place sort. -/
theorem tableEffect_spec (cast : Casting) (ra : RoleActors)
    (conv : Role → Actor → ℚ) :
    (∀ r : Role,
      (lookupRA (GeneratePossibleCastsTableEffect cast ra conv) r).Perm
        (lookupRA ra r)) ∧
    (∀ role r : Role, NextUnfilledRole cast = some role → r ≠ role →
      lookupRA (GeneratePossibleCastsTableEffect cast ra conv) r
        = lookupRA ra r) ∧
    (NextUnfilledRole cast = none →
      GeneratePossibleCastsTableEffect cast ra conv = ra) := by
  refine ⟨?_, ?_, ?_⟩
  · intro r
    cases hn : NextUnfilledRole cast with
    | none =>
      simp only [GeneratePossibleCastsTableEffect, hn]
      exact List.Perm.refl _
    | some role0 =>
      simp only [GeneratePossibleCastsTableEffect, hn]
      rw [lookupRA_updateRA]
      by_cases hr : r = role0
      · subst hr
        rw [if_pos rfl]
        exact sortActorsByKey_perm _ _
      · rw [if_neg hr]
  · intro role r h hne
    simp only [GeneratePossibleCastsTableEffect, h]
    rw [lookupRA_updateRA, if_neg hne]
  · intro h
    simp only [GeneratePossibleCastsTableEffect, h]

/-- Witness for the C8 amended theorem at a concrete input: the untouched
role keeps its list, and the sorted role's list is a permutation. -/
theorem tableEffect_spec_check :
    lookupRA (GeneratePossibleCastsTableEffect [("A", none), ("B", none)]
        [("A", ["x", "y"]), ("B", ["z"])]
        (fun _ a => if a = "y" then 2 else 1)) "B" = ["z"] ∧
    (lookupRA (GeneratePossibleCastsTableEffect [("A", none), ("B", none)]
        [("A", ["x", "y"]), ("B", ["z"])]
        (fun _ a => if a = "y" then 2 else 1)) "A").Perm ["x", "y"] := by
  have h := tableEffect_spec [("A", none), ("B", none)]
    [("A", ["x", "y"]), ("B", ["z"])] (fun _ a => if a = "y" then 2 else 1)
  constructor
  · have h2 := h.2.1 "A" "B" (by decide) (by decide)
    rw [h2]
    decide
  · have h1 := h.1 "A"
    have : lookupRA [("A", ["x", "y"]), ("B", ["z"])] "A" = ["x", "y"] := by decide
    rw [this] at h1
    exact h1

/-- C3 (spec-modelled): selectWeighted returns the cast at position i exactly
when the draw r lands in the half-open interval of length equal to that
cast's score beginning at the total weight before i; over a uniform draw on
the total weight this is selection with probability proportional to score. -/
theorem selectWeighted_proportional :
    ∀ (casts : List (Casting × ℚ)) (i : Nat) (hi : i < casts.length) (r : ℚ),
      (∀ p ∈ casts, 0 ≤ p.2) →
      weightBefore casts i ≤ r →
      r < weightBefore casts i + (casts.get ⟨i, hi⟩).2 →
      selectWeighted casts r = some (casts.get ⟨i, hi⟩).1 := by
  intro casts
  induction casts with
  | nil =>
    intro i hi
    exact absurd hi (by simp)
  | cons hd tl ih =>
    intro i hi r hw h1 h2
    obtain ⟨c, w⟩ := hd
    cases i with
    | zero =>
      have h0 : weightBefore ((c, w) :: tl) 0 = 0 := by simp [weightBefore]
      rw [h0] at h1 h2
      have hget : (((c, w) :: tl).get ⟨0, hi⟩) = (c, w) := rfl
      rw [hget] at h2 ⊢
      have hrw : r < w := by
        simpa using h2
      simp [selectWeighted, hrw]
    | succ j =>
      have hj : j < tl.length := by simpa using hi
      have hsucc : ∀ k : Nat, weightBefore ((c, w) :: tl) (k + 1)
          = w + weightBefore tl k := by
        intro k
        simp [weightBefore, List.take_succ_cons]
      rw [hsucc] at h1 h2
      have hwb : 0 ≤ weightBefore tl j := by
        unfold weightBefore
        apply List.sum_nonneg
        intro x hx
        obtain ⟨p, hp, he⟩ := List.mem_map.mp hx
        exact he ▸ hw p (List.mem_cons_of_mem _ (List.take_subset _ _ hp))
      have hge : ¬ r < w := by
        push_neg
        linarith
      have hget : (((c, w) :: tl).get ⟨j + 1, hi⟩) = tl.get ⟨j, hj⟩ := rfl
      rw [hget] at h2 ⊢
      rw [selectWeighted, if_neg hge]
      exact ih j hj (r - w) (fun p hp => hw p (List.mem_cons_of_mem _ hp))
        (by linarith) (by linarith)

/-- Witness for C3 at a concrete input: scores 1 and 2, draw r = 2 lands in
the second cast's interval. -/
theorem selectWeighted_proportional_check :
    selectWeighted [([("A", some "x")], 1), ([("A", some "y")], 2)] 2
      = some [("A", some "y")] := by
  exact selectWeighted_proportional
    [([("A", some "x")], 1), ([("A", some "y")], 2)] 1 (by decide) 2
    (by decide) (by decide) (by decide)

/-- Every cast produced by a call that still had a vacant role scores at
least the best-score argument of that call: the last assignment of each
branch completes the cast and passes the pruning comparison against the
running best score, which never decreases. -/
theorem gpc_score_ge (conv skill : Role → Actor → ℚ) (sched : List Actor) :
    ∀ (fuel : Nat) (cast : Casting) (ra : RoleActors) (best : ℚ),
      countVacant cast < fuel → 0 < countVacant cast →
      ∀ c ∈ (GPCfuel conv skill sched fuel cast ra best).1,
        best ≤ ScoreCast c conv skill := by
  intro fuel
  induction fuel with
  | zero =>
    intro cast ra best h1 h2 c hc
    omega
  | succ f ih =>
    intro cast ra best h1 h2 c hc
    cases hn : NextUnfilledRole cast with
    | none =>
      have := nextUnfilledRole_eq_none_iff.mp hn
      omega
    | some role =>
      rw [GPCfuel_succ_some conv skill sched f _ best hn] at hc
      obtain ⟨a, ha, b, hb, hbs, hmem⟩ := goActors_cases hc
      have hmemrole : (role, none) ∈ cast := nextUnfilledRole_some_mem hn
      have hlt := countVacant_setRole_lt a hmemrole
      have hmem2 : c ∈ (GPCfuel conv skill sched f (setRole cast role (some a))
          (CopyPurgingActor (updateRA _ role _) a) b).1 := hmem
      by_cases hz : countVacant (setRole cast role (some a)) = 0
      · cases f with
        | zero => omega
        | succ f2 =>
          have hnone : NextUnfilledRole (setRole cast role (some a)) = none :=
            nextUnfilledRole_eq_none_iff.mpr hz
          rw [GPCfuel_succ_none conv skill sched f2 _ b hnone] at hmem2
          by_cases hreq : CastHasRequiredActors (setRole cast role (some a)) sched
            = true
          · rw [if_pos hreq] at hmem2
            have hceq : c = setRole cast role (some a) :=
              List.mem_singleton.mp hmem2
            rw [hceq]
            exact le_trans hb (not_lt.mp hbs)
          · rw [if_neg hreq] at hmem2
            cases hmem2
      · exact le_trans hb
          (ih (setRole cast role (some a)) _ b (by omega) (by omega) c hmem2)

/-- C1 amended: GeneratePossibleCasts has no qualityThreshold parameter and
pruning is never disabled; branches scoring strictly below the running best
score are always discarded, so the enumeration is not exhaustive. What holds
instead: started from a cast with at least one vacant role, every returned
cast scores at least the initial best_score argument (0 in main's call). -/
theorem generatePossibleCasts_score_ge_best (cast : Casting) (ra : RoleActors)
    (sched : List Actor) (best : ℚ) (conv skill : Role → Actor → ℚ)
    (h : 0 < countVacant cast) :
    ∀ c ∈ (GeneratePossibleCasts cast ra sched best conv skill).1,
      best ≤ ScoreCast c conv skill := by
  unfold GeneratePossibleCasts
  exact gpc_score_ge conv skill sched (countVacant cast + 1) cast ra best
    (by omega) h

theorem castHasRequired_iff {cast : Casting} {sched : List Actor} :
    CastHasRequiredActors cast sched = true
      ↔ ∀ s ∈ sched, some s ∈ cast.map Prod.snd := by
  unfold CastHasRequiredActors
  rw [List.all_eq_true]
  constructor
  · intro h s hs
    simpa using h s hs
  · intro h s hs
    simpa using h s hs

theorem lookupRA_nodup {ra : RoleActors}
    (h : ∀ p ∈ ra, (p.2 : List Actor).Nodup) (r : Role) :
    (lookupRA ra r).Nodup := by
  induction ra with
  | nil => simp [lookupRA]
  | cons p t ih =>
    unfold lookupRA
    by_cases hp : p.1 = r
    · rw [if_pos hp]
      exact h p (List.mem_cons_self _ _)
    · rw [if_neg hp]
      exact ih (fun q hq => h q (List.mem_cons_of_mem _ hq))

/-- Soundness invariant of the search: under the given invariants on the
partial cast and the remaining-eligibility table, every cast in the output
keeps the cast's roles, fills each entry either as it already was or with an
actor eligible for that role in the outer table, assigns pairwise distinct
actors, is complete, and contains all scheduled actors. -/
theorem gpc_sound (conv skill : Role → Actor → ℚ) (sched : List Actor)
    (ra0 : RoleActors) :
    ∀ (fuel : Nat) (cast : Casting) (ra : RoleActors) (best : ℚ),
      countVacant cast < fuel →
      (cast.map Prod.fst).Nodup →
      (∀ r : Role, (lookupRA ra r).Nodup) →
      (∀ r : Role, lookupRA ra r ⊆ lookupRA ra0 r) →
      (∀ (r : Role) (a : Actor), a ∈ lookupRA ra r → some a ∉ cast.map Prod.snd) →
      (cast.filterMap Prod.snd).Nodup →
      ∀ c ∈ (GPCfuel conv skill sched fuel cast ra best).1,
        c.map Prod.fst = cast.map Prod.fst ∧
        (∀ p ∈ c, p ∈ cast ∨ ∃ a : Actor, p.2 = some a ∧ a ∈ lookupRA ra0 p.1) ∧
        (c.filterMap Prod.snd).Nodup ∧
        (∀ p ∈ c, p.2 ≠ none) ∧
        (∀ s ∈ sched, some s ∈ c.map Prod.snd) := by
  intro fuel
  induction fuel with
  | zero =>
    intro cast ra best h1 _ _ _ _ _ c hc
    omega
  | succ f ih =>
    intro cast ra best hfuel hkeys hnd hsub hdisj hassigned c hc
    cases hn : NextUnfilledRole cast with
    | none =>
      rw [GPCfuel_succ_none conv skill sched f ra best hn] at hc
      by_cases hreq : CastHasRequiredActors cast sched = true
      · rw [if_pos hreq] at hc
        have hceq : c = cast := List.mem_singleton.mp hc
        rw [hceq]
        refine ⟨rfl, fun p hp => Or.inl hp, hassigned, ?_, ?_⟩
        · rintro ⟨r0, oa⟩ hp hnone
          rcases oa with _ | a0
          · have hv : r0 ∈ vacantRoles cast := mem_vacantRoles.mpr hp
            have hz : countVacant cast = 0 := nextUnfilledRole_eq_none_iff.mp hn
            have : vacantRoles cast = [] := List.length_eq_zero.mp hz
            rw [this] at hv
            cases hv
          · cases hnone
        · exact fun s hs => castHasRequired_iff.mp hreq s hs
      · rw [if_neg hreq] at hc
        cases hc
    | some role =>
      rw [GPCfuel_succ_some conv skill sched f ra best hn] at hc
      obtain ⟨a, ha, b, hb, hbs, hmem0⟩ := goActors_cases hc
      have hmemrole : (role, none) ∈ cast := nextUnfilledRole_some_mem hn
      have hsortedsub :
          sortActorsByKey (fun x => conv role x * conv role x) (lookupRA ra role)
            ⊆ lookupRA ra role := fun x hx => mem_sortActorsByKey hx
      have hamem : a ∈ lookupRA ra role := hsortedsub ha
      have hlookup2 : ∀ r : Role,
          lookupRA (updateRA ra role (sortActorsByKey
            (fun x => conv role x * conv role x) (lookupRA ra role))) r
          = if r = role
            then sortActorsByKey (fun x => conv role x * conv role x)
              (lookupRA ra role)
            else lookupRA ra r :=
        fun r => lookupRA_updateRA ra role _ r
      have hnd2 : ∀ r : Role,
          (lookupRA (updateRA ra role (sortActorsByKey
            (fun x => conv role x * conv role x) (lookupRA ra role))) r).Nodup := by
        intro r
        rw [hlookup2]
        by_cases hr : r = role
        · rw [if_pos hr]
          exact ((sortActorsByKey_perm _ _).nodup_iff).mpr (hnd role)
        · rw [if_neg hr]
          exact hnd r
      have hsub2 : ∀ r : Role,
          lookupRA (updateRA ra role (sortActorsByKey
            (fun x => conv role x * conv role x) (lookupRA ra role))) r
          ⊆ lookupRA ra r := by
        intro r
        rw [hlookup2]
        by_cases hr : r = role
        · rw [if_pos hr]
          subst hr
          exact hsortedsub
        · rw [if_neg hr]
          exact fun x hx => hx
      have hmem : c ∈ (GPCfuel conv skill sched f (setRole cast role (some a))
          (CopyPurgingActor (updateRA ra role (sortActorsByKey
            (fun x => conv role x * conv role x) (lookupRA ra role))) a) b).1 :=
        hmem0
      have hfuel2 : countVacant (setRole cast role (some a)) < f := by
        have hlt := countVacant_setRole_lt a hmemrole
        omega
      have hkeys2 : ((setRole cast role (some a)).map Prod.fst).Nodup := by
        rw [setRole_map_fst]
        exact hkeys
      have hnd3 : ∀ r : Role,
          (lookupRA (CopyPurgingActor (updateRA ra role (sortActorsByKey
            (fun x => conv role x * conv role x) (lookupRA ra role))) a) r).Nodup := by
        intro r
        rw [lookupRA_purge]
        exact List.Nodup.erase a (hnd2 r)
      have hsub3 : ∀ r : Role,
          lookupRA (CopyPurgingActor (updateRA ra role (sortActorsByKey
            (fun x => conv role x * conv role x) (lookupRA ra role))) a) r
          ⊆ lookupRA ra0 r := by
        intro r
        rw [lookupRA_purge]
        exact fun x hx => hsub r (hsub2 r (List.erase_subset _ _ hx))
      have hdisj3 : ∀ (r : Role) (x : Actor),
          x ∈ lookupRA (CopyPurgingActor (updateRA ra role (sortActorsByKey
            (fun x => conv role x * conv role x) (lookupRA ra role))) a) r →
          some x ∉ (setRole cast role (some a)).map Prod.snd := by
        intro r x hx hsome
        rw [lookupRA_purge] at hx
        have hxne : x ≠ a := ((hnd2 r).mem_erase_iff.mp hx).1
        have hx2 : x ∈ lookupRA ra r := hsub2 r (List.erase_subset _ _ hx)
        obtain ⟨p, hp, hps⟩ := List.mem_map.mp hsome
        rcases mem_setRole hp with hin | heq
        · exact hdisj r x hx2 (List.mem_map.mpr ⟨p, hin, hps⟩)
        · rw [heq] at hps
          exact hxne (by injection hps with h; exact h.symm)
      have hass3 : ((setRole cast role (some a)).filterMap Prod.snd).Nodup := by
        have hperm := assigned_setRole_perm hkeys hmemrole (a := a)
        have hnotmem : a ∉ cast.filterMap Prod.snd := by
          intro hmema
          exact hdisj role a hamem (mem_assigned_iff.mp hmema)
        exact hperm.nodup_iff.mpr (List.nodup_cons.mpr ⟨hnotmem, hassigned⟩)
      have hchild := ih (setRole cast role (some a))
        (CopyPurgingActor (updateRA ra role (sortActorsByKey
          (fun x => conv role x * conv role x) (lookupRA ra role))) a) b
        hfuel2 hkeys2 hnd3 hsub3 hdisj3 hass3 c hmem
      obtain ⟨hkeysc, hentries, hnodupc, hcomplete, hrequired⟩ := hchild
      refine ⟨hkeysc.trans (setRole_map_fst cast role (some a)), ?_, hnodupc,
        hcomplete, hrequired⟩
      intro p hp
      rcases hentries p hp with hin | ⟨a', ha1, ha2⟩
      · rcases mem_setRole hin with hin2 | heq
        · exact Or.inl hin2
        · refine Or.inr ⟨a, ?_, ?_⟩
          · rw [heq]
          · rw [heq]
            exact hsub role hamem
      · exact Or.inr ⟨a', ha1, ha2⟩

/-- C4 amended (the eligible lists must be duplicate-free, which main's
ingestion enforces by rejecting an actor listed twice for a role): every cast
returned by GeneratePossibleCasts, started from an all-vacant cast with
distinct role keys, keeps the roles, fills every role with an actor from that
role's original eligible list, assigns pairwise distinct actors, and contains
every scheduled actor exactly once among its values. -/
theorem generatePossibleCasts_complete_valid (cast0 : Casting)
    (ra : RoleActors) (sched : List Actor) (conv skill : Role → Actor → ℚ)
    (h0 : ∀ p ∈ cast0, (p.2 : Option Actor) = none)
    (hk : (cast0.map Prod.fst).Nodup)
    (hnd : ∀ p ∈ ra, (p.2 : List Actor).Nodup) :
    ∀ c ∈ (GeneratePossibleCasts cast0 ra sched 0 conv skill).1,
      c.map Prod.fst = cast0.map Prod.fst ∧
      (∀ p ∈ c, ∃ a : Actor, p.2 = some a ∧ a ∈ lookupRA ra p.1) ∧
      (c.filterMap Prod.snd).Nodup ∧
      (∀ s ∈ sched, (c.filterMap Prod.snd).count s = 1) := by
  intro c hc
  unfold GeneratePossibleCasts at hc
  have hassigned : cast0.filterMap Prod.snd = [] :=
    List.filterMap_eq_nil_iff.mpr (fun p hp => by simp [h0 p hp])
  have h := gpc_sound conv skill sched ra (countVacant cast0 + 1) cast0 ra 0
    (by omega) hk (lookupRA_nodup hnd) (fun r => fun x hx => hx)
    (fun r a ha hsome => by
      obtain ⟨p, hp, hps⟩ := List.mem_map.mp hsome
      rw [h0 p hp] at hps
      cases hps)
    (by rw [hassigned]; exact List.nodup_nil) c hc
  obtain ⟨hkeys, hentries, hnodup, hcomplete, hrequired⟩ := h
  refine ⟨hkeys, ?_, hnodup, ?_⟩
  · intro p hp
    rcases hentries p hp with hin | ⟨a, ha1, ha2⟩
    · exact absurd (h0 p hin) (hcomplete p hp)
    · exact ⟨a, ha1, ha2⟩
  · intro s hs
    exact List.count_eq_one_of_mem hnodup
      (mem_assigned_iff.mpr (hrequired s hs))

/-- Witness for the C4 amended theorem at a concrete input. -/
theorem generatePossibleCasts_complete_valid_check :
    ([("A", some "x"), ("B", some "y")] : Casting).map Prod.fst
        = ([("A", none), ("B", none)] : Casting).map Prod.fst ∧
    ((([("A", some "x"), ("B", some "y")] : Casting)).filterMap
        Prod.snd).count "x" = 1 := by
  have h := generatePossibleCasts_complete_valid
    [("A", none), ("B", none)] [("A", ["x", "y"]), ("B", ["x", "y"])] ["x"]
    (fun _ _ => 1) (fun _ _ => 1) (by decide) (by decide) (by decide)
    [("A", some "x"), ("B", some "y")] (by decide)
  exact ⟨h.1, h.2.2.2 "x" (by decide)⟩

/-- Witness for the C1 amended theorem at a concrete input. -/
theorem generatePossibleCasts_score_ge_best_check :
    0 < countVacant [("A", (none : Option Actor))] ∧
    [("A", some "x")] ∈ (GeneratePossibleCasts [("A", none)] [("A", ["x", "y"])]
        [] 0 (fun _ a => if a = "x" then 2 else 1) (fun _ _ => 1)).1 ∧
    (0 : ℚ) ≤ ScoreCast [("A", some "x")]
        (fun _ a => if a = "x" then 2 else 1) (fun _ _ => 1) :=
  ⟨by decide, by decide,
    generatePossibleCasts_score_ge_best [("A", none)] [("A", ["x", "y"])] [] 0
      (fun _ a => if a = "x" then 2 else 1) (fun _ _ => 1) (by decide)
      [("A", some "x")] (by decide)⟩

/-- Assigning an actor to the chosen vacant role of a cast with distinct role
keys lowers the vacant-role count by exactly one. -/
theorem countVacant_setRole_eq {cast : Casting} {role : Role} (a : Actor)
    (hk : (cast.map Prod.fst).Nodup) (hmem : (role, none) ∈ cast) :
    countVacant (setRole cast role (some a)) + 1 = countVacant cast := by
  induction cast with
  | nil => cases hmem
  | cons p t ih =>
    simp only [List.map_cons, List.nodup_cons] at hk
    obtain ⟨hp1, hk2⟩ := hk
    rw [setRole_cons, countVacant_cons, countVacant_cons]
    have hsa : ¬ (((role, some a) : Role × Option Actor).2 = none) := by simp
    rcases List.mem_cons.mp hmem with he | ht
    · subst he
      rw [if_pos rfl, if_neg hsa, if_pos rfl, setRole_eq_of_not_mem hp1]
      omega
    · have hp : p.1 ≠ role := fun hh =>
        hp1 (hh ▸ List.mem_map_of_mem Prod.fst ht)
      rw [if_neg hp]
      have := ih hk2 ht
      omega

/-- The search's result does not depend on the fuel once the fuel exceeds the
number of vacant roles: every recursive call strictly decreases that number,
so the recursion always bottoms out within countVacant steps. -/
theorem GPCfuel_fuel_irrel (conv skill : Role → Actor → ℚ)
    (sched : List Actor) :
    ∀ (f1 f2 : Nat) (cast : Casting) (ra : RoleActors) (best : ℚ),
      countVacant cast < f1 → countVacant cast < f2 →
      GPCfuel conv skill sched f1 cast ra best
        = GPCfuel conv skill sched f2 cast ra best := by
  intro f1
  induction f1 with
  | zero =>
    intro f2 cast ra best h1 h2
    omega
  | succ f1' ih =>
    intro f2 cast ra best h1 h2
    cases f2 with
    | zero => omega
    | succ f2' =>
      cases hn : NextUnfilledRole cast with
      | none =>
        rw [GPCfuel_succ_none conv skill sched f1' ra best hn,
          GPCfuel_succ_none conv skill sched f2' ra best hn]
      | some role =>
        rw [GPCfuel_succ_some conv skill sched f1' ra best hn,
          GPCfuel_succ_some conv skill sched f2' ra best hn]
        apply goActors_congr
        intro a b
        have hmem : (role, none) ∈ cast := nextUnfilledRole_some_mem hn
        have hlt := countVacant_setRole_lt a hmem
        exact ih f2' (setRole cast role (some a)) _ b (by omega) (by omega)

/-- C9: GeneratePossibleCasts terminates on every input. Formally: assigning
an actor to the chosen vacant role decreases the vacant-role count by exactly
one; the recursion bottoms out exactly when no vacant role remains; and the
fuelled search agrees with GeneratePossibleCasts for every fuel exceeding the
vacant-role count, so the recursion depth is bounded by the number of vacant
roles. -/
theorem generatePossibleCasts_terminates :
    (∀ (cast : Casting) (role : Role) (a : Actor),
      (cast.map Prod.fst).Nodup → NextUnfilledRole cast = some role →
      countVacant (setRole cast role (some a)) + 1 = countVacant cast) ∧
    (∀ cast : Casting, NextUnfilledRole cast = none ↔ countVacant cast = 0) ∧
    (∀ (conv skill : Role → Actor → ℚ) (sched : List Actor) (fuel : Nat)
      (cast : Casting) (ra : RoleActors) (best : ℚ),
      countVacant cast < fuel →
      GPCfuel conv skill sched fuel cast ra best
        = GeneratePossibleCasts cast ra sched best conv skill) := by
  refine ⟨?_, ?_, ?_⟩
  · intro cast role a hk hn
    exact countVacant_setRole_eq a hk (nextUnfilledRole_some_mem hn)
  · intro cast
    exact nextUnfilledRole_eq_none_iff
  · intro conv skill sched fuel cast ra best h
    unfold GeneratePossibleCasts
    exact GPCfuel_fuel_irrel conv skill sched fuel (countVacant cast + 1)
      cast ra best h (by omega)

/-- Witness for C9 at a concrete input: one assignment takes the vacant count
from 2 to 1, a full cast has no next unfilled role, and fuel 7 computes the
same result as the vacant-count bound. -/
theorem generatePossibleCasts_terminates_check :
    countVacant (setRole [("A", none), ("B", none)] "A" (some "x")) + 1
      = countVacant [("A", none), ("B", none)] ∧
    (NextUnfilledRole [("A", some "x")] = none ↔
      countVacant [("A", some "x")] = 0) ∧
    GPCfuel (fun _ _ => 1) (fun _ _ => 1) [] 7 [("A", none), ("B", none)]
        [("A", ["x"]), ("B", ["y"])] 0
      = GeneratePossibleCasts [("A", none), ("B", none)]
          [("A", ["x"]), ("B", ["y"])] [] 0 (fun _ _ => 1) (fun _ _ => 1) :=
  ⟨generatePossibleCasts_terminates.1 [("A", none), ("B", none)] "A" "x"
      (by decide) (by decide),
   generatePossibleCasts_terminates.2.1 [("A", some "x")],
   generatePossibleCasts_terminates.2.2 (fun _ _ => 1) (fun _ _ => 1) [] 7
      [("A", none), ("B", none)] [("A", ["x"]), ("B", ["y"])] 0 (by decide)⟩

end Beatrice
